import Mathlib

/-!
Verification of the Elastos.ELA DPoS arbitrator state engine (package
`dpos/state`, file `arbitrators.go`, plus the view-change countdown of
`dpos/manager/countdown.go`) against its natural-language specification.

Conventions of the shallow embedding:
* `uint32` values become `ℕ`; where Go's wrap-around matters (subtraction,
  multiplication) the operation is taken modulo `2^32` explicitly.
* `common.Fixed64` (an `int64` of sELA) becomes `ℤ`.
* Go `float64` intermediate arithmetic is modelled over `ℚ`; where the spec
  range makes the float computation exact this is noted at the definition,
  and for `GetArbitersMajorityCount` the IEEE-754 rounding of the one
  inexact division is simulated exactly in integers (`floatTwoThirdsOf`).
* Go maps become association lists (`List (ℕ × V)`) with first-occurrence
  replacement, matching map-assignment semantics; `common.Uint168` and
  `common.Uint256` keys are abstracted to `ℕ`.
* `[][]byte` arbiter lists become `List ℕ` (each public key abstracted to
  a number; only equality and ordering of keys matter to the claims).
-/

set_option maxRecDepth 100000

set_option maxHeartbeats 1000000

namespace ElastosDPOS

/-- Lookup in a Go-map modelled as an association list: value of the first
entry whose key matches. -/
def alGet {V : Type} : List (ℕ × V) → ℕ → Option V
  | [], _ => Option.none
  | p :: t, k => if p.1 = k then some p.2 else alGet t k

/-- Go map assignment `m[k] = v`: replace the first entry with key `k`, or
append a new entry when the key is absent. -/
def alSet {V : Type} : List (ℕ × V) → ℕ → V → List (ℕ × V)
  | [], k, v => [(k, v)]
  | p :: t, k, v => if p.1 = k then (k, v) :: t else p :: alSet t k v

/-- Go map increment `m[k] += v` (missing key reads as zero value). -/
def alAdd (m : List (ℕ × ℤ)) (k : ℕ) (v : ℤ) : List (ℕ × ℤ) :=
  alSet m k ((alGet m k).getD 0 + v)

/-- The keys of an association-list map. -/
def keysOf {V : Type} (m : List (ℕ × V)) : List ℕ := m.map Prod.fst

/-- Sum of all values of an association-list map. -/
def alSum (m : List (ℕ × ℤ)) : ℤ := (m.map Prod.snd).sum

@[simp] theorem keysOf_nil {V : Type} : keysOf ([] : List (ℕ × V)) = [] := rfl

@[simp] theorem keysOf_cons {V : Type} (p : ℕ × V) (t : List (ℕ × V)) :
    keysOf (p :: t) = p.1 :: keysOf t := rfl

@[simp] theorem alSum_nil : alSum [] = 0 := rfl

@[simp] theorem alSum_cons (p : ℕ × ℤ) (t : List (ℕ × ℤ)) :
    alSum (p :: t) = p.2 + alSum t := rfl

theorem alGet_alSet {V : Type} (m : List (ℕ × V)) (k k' : ℕ) (v : V) :
    alGet (alSet m k v) k' = if k' = k then some v else alGet m k' := by
  induction m with
  | nil =>
    by_cases h : k' = k
    · simp [alSet, alGet, h]
    · have hk : ¬ (k : ℕ) = k' := fun hc => h hc.symm
      simp [alSet, alGet, h, hk]
  | cons p t ih =>
    by_cases hp : p.1 = k
    · by_cases h : k' = k
      · simp [alSet, alGet, hp, h]
      · have hk : ¬ (k : ℕ) = k' := fun hc => h hc.symm
        have hp' : ¬ p.1 = k' := by rw [hp]; exact hk
        simp [alSet, alGet, hp, h, hk, hp']
    · by_cases hq : p.1 = k'
      · have h : ¬ k' = k := fun hc => hp (by rw [hq, hc])
        simp [alSet, alGet, hp, hq, h, ih]
      · by_cases h : k' = k
        · subst h
          simp [alSet, alGet, hp, hq, ih]
        · simp [alSet, alGet, hp, hq, h, ih]

theorem alGet_eq_none_of_not_mem {V : Type} (m : List (ℕ × V)) (k : ℕ)
    (h : k ∉ keysOf m) : alGet m k = Option.none := by
  induction m with
  | nil => rfl
  | cons p t ih =>
    rw [keysOf_cons, List.mem_cons] at h
    push_neg at h
    have hp : ¬ p.1 = k := fun hc => h.1 hc.symm
    simpa [alGet, hp] using ih h.2

theorem keysOf_alSet_mem {V : Type} (m : List (ℕ × V)) (k : ℕ) (v : V)
    (h : k ∈ keysOf m) : keysOf (alSet m k v) = keysOf m := by
  induction m with
  | nil => simp at h
  | cons p t ih =>
    by_cases hp : p.1 = k
    · simp [alSet, hp]
    · rw [keysOf_cons, List.mem_cons] at h
      rcases h with h | h
      · exact absurd h.symm hp
      · simp [alSet, hp, ih h]

theorem keysOf_alSet_not_mem {V : Type} (m : List (ℕ × V)) (k : ℕ) (v : V)
    (h : k ∉ keysOf m) : keysOf (alSet m k v) = keysOf m ++ [k] := by
  induction m with
  | nil => simp [alSet]
  | cons p t ih =>
    rw [keysOf_cons, List.mem_cons] at h
    push_neg at h
    have hp : ¬ p.1 = k := fun hc => h.1 hc.symm
    simp [alSet, hp, ih h.2]

theorem alSum_alSet_not_mem (m : List (ℕ × ℤ)) (k : ℕ) (v : ℤ)
    (h : k ∉ keysOf m) : alSum (alSet m k v) = alSum m + v := by
  induction m with
  | nil => simp [alSet]
  | cons p t ih =>
    rw [keysOf_cons, List.mem_cons] at h
    push_neg at h
    have hp : ¬ p.1 = k := fun hc => h.1 hc.symm
    simp [alSet, hp, ih h.2]
    ring

theorem alSum_alSet_mem (m : List (ℕ × ℤ)) (k : ℕ) (v : ℤ)
    (h : k ∈ keysOf m) :
    alSum (alSet m k v) = alSum m - (alGet m k).getD 0 + v := by
  induction m with
  | nil => simp at h
  | cons p t ih =>
    by_cases hp : p.1 = k
    · simp [alSet, alGet, hp]
      ring
    · rw [keysOf_cons, List.mem_cons] at h
      rcases h with h | h
      · exact absurd h.symm hp
      · simp [alSet, alGet, hp, ih h]
        ring

theorem alSum_alAdd (m : List (ℕ × ℤ)) (k : ℕ) (v : ℤ) :
    alSum (alAdd m k v) = alSum m + v := by
  by_cases h : k ∈ keysOf m
  · rw [alAdd, alSum_alSet_mem m k _ h]
    ring
  · rw [alAdd, alSum_alSet_not_mem m k _ h, alGet_eq_none_of_not_mem m k h]
    simp

theorem mem_of_alGet {V : Type} (m : List (ℕ × V)) (k : ℕ) (v : V)
    (h : alGet m k = some v) : (k, v) ∈ m := by
  induction m with
  | nil => simp [alGet] at h
  | cons p t ih =>
    by_cases hp : p.1 = k
    · simp [alGet, hp] at h
      rw [List.mem_cons]
      left
      obtain ⟨a, b⟩ := p
      simp at hp h
      simp [hp, h]
    · simp [alGet, hp] at h
      exact List.mem_cons.mpr (Or.inr (ih h))

theorem alGet_of_mem_nodup {V : Type} (m : List (ℕ × V)) (k : ℕ) (v : V)
    (hnd : (keysOf m).Nodup) (h : (k, v) ∈ m) : alGet m k = some v := by
  induction m with
  | nil => simp at h
  | cons p t ih =>
    rw [keysOf_cons, List.nodup_cons] at hnd
    rcases List.mem_cons.mp h with h | h
    · simp [← h, alGet]
    · have hk : k ∈ keysOf t := by
        rw [keysOf, List.mem_map]
        exact ⟨(k, v), h, rfl⟩
      have hp : ¬ p.1 = k := fun hc => hnd.1 (hc ▸ hk)
      simp [alGet, hp]
      exact ih hnd.2 h

theorem nodup_keys_alSet {V : Type} (m : List (ℕ × V)) (k : ℕ) (v : V)
    (hnd : (keysOf m).Nodup) : (keysOf (alSet m k v)).Nodup := by
  by_cases h : k ∈ keysOf m
  · rw [keysOf_alSet_mem m k v h]
    exact hnd
  · rw [keysOf_alSet_not_mem m k v h]
    simp [List.nodup_append, hnd]
    exact h

theorem mem_alSet_cases {V : Type} (m : List (ℕ × V)) (k : ℕ) (v : V)
    (p : ℕ × V) (h : p ∈ alSet m k v) : p = (k, v) ∨ p ∈ m := by
  induction m with
  | nil =>
    simp [alSet] at h
    simp [h]
  | cons q t ih =>
    by_cases hq : q.1 = k
    · simp [alSet, hq] at h
      rcases h with h | h
      · simp [h]
      · simp [h]
    · simp [alSet, hq] at h
      rcases h with h | h
      · simp [h]
      · rcases ih h with h | h
        · simp [h]
        · simp [h]

/-- Go's `int64(f)` / `common.Fixed64(f)` conversion of a `float64`:
truncation toward zero, modelled on exact rationals. -/
def ratTrunc (q : ℚ) : ℤ := if q < 0 then ⌈q⌉ else ⌊q⌋

/-- Go `uint32` subtraction `a - b` (wrap-around), for `a b < 2^32`. -/
def usub32 (a b : ℕ) : ℕ := (a + 4294967296 - b) % 4294967296

/-- A transaction, reduced to the fields the arbitrators engine reads:
its fee, whether `IsIllegalBlockTx()` holds, and (for illegal-block
transactions) the hash of its `DPOSIllegalBlocks` payload. -/
structure Transaction where
  fee : ℤ
  isIllegalBlockTx : Bool
  payloadHash : ℕ
deriving DecidableEq

/-- A block, reduced to the fields the arbitrators engine reads. -/
structure Block where
  height : ℕ
  transactions : List Transaction
deriving DecidableEq

/-- `ChangeType` of `arbitrators.go` (`none` / `updateNext` /
`normalChange`). -/
inductive ChangeType where
  | none
  | updateNext
  | normalChange
deriving DecidableEq

/-- The `arbitrators` struct of `arbitrators.go`, restricted to the fields
the claims observe, together with the `chainParams` fields it reads
(`CRCOnlyDPOSHeight` = H1, `PublicDPOSHeight` = H2, `PreConnectOffset`,
`RewardPerBlock`, `CRCAddress`).  `crcArbitratorsProgramHashes` is the
key set `crcProgramHashes`; maps are association lists; the
`arbitersRoundReward` map distinguishes Go's `nil` map (`Option.none`)
from an allocated one. -/
structure Arbitrators where
  crcOnlyDPOSHeight : ℕ
  publicDPOSHeight : ℕ
  preConnectOffset : ℕ
  rewardPerBlock : ℤ
  crcAddress : ℕ
  dutyIndex : ℕ
  currentArbitrators : List ℕ
  currentCandidates : List ℕ
  currentOwnerProgramHashes : List ℕ
  candidateOwnerProgramHashes : List ℕ
  nextOwnerProgramHashes : List ℕ
  nextCandidateOwnerProgramHashes : List ℕ
  ownerVotesInRound : ℕ → ℤ
  totalVotesInRound : ℤ
  nextArbitrators : List ℕ
  nextCandidates : List ℕ
  crcProgramHashes : List ℕ
  accumulativeReward : ℤ
  finalRoundChange : ℤ
  clearingHeight : ℕ
  arbitersRoundReward : Option (List (ℕ × ℤ))
  illegalBlocksPayloadHashes : List ℕ
  inactiveTxs : List ℕ

/-- `getChangeType` of `arbitrators.go:599`.  The two `H - PreConnectOffset`
comparisons are `uint32` subtractions. -/
def getChangeType (a : Arbitrators) (height : ℕ) : ChangeType × ℕ :=
  if height = usub32 a.crcOnlyDPOSHeight a.preConnectOffset then
    (ChangeType.updateNext, a.crcOnlyDPOSHeight)
  else if height = a.crcOnlyDPOSHeight then
    (ChangeType.normalChange, a.crcOnlyDPOSHeight)
  else if height = usub32 a.publicDPOSHeight a.preConnectOffset then
    (ChangeType.updateNext, a.publicDPOSHeight)
  else if height = a.publicDPOSHeight then
    (ChangeType.normalChange, a.publicDPOSHeight)
  else if a.publicDPOSHeight < height ∧
      (a.dutyIndex : ℤ) = (a.currentArbitrators.length : ℤ) - 1 then
    (ChangeType.normalChange, height)
  else
    (ChangeType.none, height)

/-- The rotation schedule exactly as the specification words it
(§4.4 "Rotation schedule"), with mathematical (non-wrapping) subtraction
on the two pre-connect checkpoints. -/
def scheduleChangeType (a : Arbitrators) (height : ℕ) : ChangeType × ℕ :=
  if height = a.crcOnlyDPOSHeight - a.preConnectOffset then
    (ChangeType.updateNext, a.crcOnlyDPOSHeight)
  else if height = a.crcOnlyDPOSHeight then
    (ChangeType.normalChange, a.crcOnlyDPOSHeight)
  else if height = a.publicDPOSHeight - a.preConnectOffset then
    (ChangeType.updateNext, a.publicDPOSHeight)
  else if height = a.publicDPOSHeight then
    (ChangeType.normalChange, a.publicDPOSHeight)
  else if a.publicDPOSHeight < height ∧
      (a.dutyIndex : ℤ) = (a.currentArbitrators.length : ℤ) - 1 then
    (ChangeType.normalChange, height)
  else
    (ChangeType.none, height)

/-- `getBlockDPOSReward` of `arbitrators.go:859`:
`ceil((Σ fees + RewardPerBlock) * 0.35)`.  The Go code computes this over
`float64`; for all reward magnitudes below ≈2^49 sELA the IEEE-754
computation agrees with the exact rational ceiling modelled here. -/
def getBlockDPOSReward (a : Arbitrators) (block : Block) : ℤ :=
  let totalTxFx : ℤ := (block.transactions.map Transaction.fee).sum
  ⌈((totalTxFx + a.rewardPerBlock : ℤ) : ℚ) * (35 / 100)⌉

/-- `accumulateReward` of `arbitrators.go:275`. -/
def accumulateReward (a : Arbitrators) (block : Block) : Arbitrators :=
  if block.height ≤ a.publicDPOSHeight then a
  else
    { a with
      accumulativeReward := a.accumulativeReward + getBlockDPOSReward a block
      arbitersRoundReward := Option.none
      finalRoundChange := 0 }

/-- The per-arbitrator loop of `distributeWithNormalArbitrators`
(`arbitrators.go:350-362`), over `currentOwnerProgramHashes`;
accumulator is the reward map together with `realDPOSReward`. -/
def rewardLoop (a : Arbitrators) (ibcr : ℤ) (rewardPerVote : ℚ) :
    List ℕ → List (ℕ × ℤ) → ℤ → List (ℕ × ℤ) × ℤ
  | [], m, real => (m, real)
  | ownerHash :: t, m, real =>
    let votes := a.ownerVotesInRound ownerHash
    let individualProducerReward := ratTrunc ((votes : ℚ) * rewardPerVote)
    if ownerHash ∈ a.crcProgramHashes then
      rewardLoop a ibcr rewardPerVote t (alAdd m a.crcAddress ibcr) (real + ibcr)
    else
      rewardLoop a ibcr rewardPerVote t
        (alSet m ownerHash (ibcr + individualProducerReward))
        (real + (ibcr + individualProducerReward))

/-- The candidate loop of `distributeWithNormalArbitrators`
(`arbitrators.go:363-370`), over `candidateOwnerProgramHashes`. -/
def candLoop (a : Arbitrators) (rewardPerVote : ℚ) :
    List ℕ → List (ℕ × ℤ) → ℤ → List (ℕ × ℤ) × ℤ
  | [], m, real => (m, real)
  | ownerHash :: t, m, real =>
    let votes := a.ownerVotesInRound ownerHash
    let individualProducerReward := ratTrunc ((votes : ℚ) * rewardPerVote)
    candLoop a rewardPerVote t (alSet m ownerHash individualProducerReward)
      (real + individualProducerReward)

/-- The local `individualBlockConfirmReward` of
`distributeWithNormalArbitrators`:
`Fixed64(math.Floor(totalBlockConfirmReward / len(ownerHashes)))` with
`totalBlockConfirmReward = float64(reward) * 0.25`. -/
def individualBlockConfirmReward (a : Arbitrators) (reward : ℤ) : ℤ :=
  ⌊(reward : ℚ) * (25 / 100) / (a.currentOwnerProgramHashes.length : ℚ)⌋

/-- The local `rewardPerVote` of `distributeWithNormalArbitrators`:
`totalTopProducersReward / float64(totalVotesInRound)` with
`totalTopProducersReward = float64(reward) - float64(reward) * 0.25`. -/
def rewardPerVote (a : Arbitrators) (reward : ℤ) : ℚ :=
  ((reward : ℚ) - (reward : ℚ) * (25 / 100)) / (a.totalVotesInRound : ℚ)

/-- `distributeWithNormalArbitrators` of `arbitrators.go:332`.  The float
arithmetic (`0.25`/`0.75` splits, `math.Floor`, per-vote division and the
`Fixed64` truncations) is modelled over exact rationals; the source's
local variables are the helper definitions `individualBlockConfirmReward`
and `rewardPerVote` (pure, so hoisting them out of the branch order is
observationally identical). -/
def distributeWithNormalArbitrators (a : Arbitrators) (reward : ℤ) :
    Arbitrators × Except String ℤ :=
  if a.currentOwnerProgramHashes.isEmpty then
    (a, Except.error "not found arbiters when distributeDposReward")
  else if a.totalVotesInRound = 0 then
    ({ a with arbitersRoundReward := some (alSet
        (a.arbitersRoundReward.getD []) a.crcAddress reward) },
      Except.ok 0)
  else
    ({ a with arbitersRoundReward := some (candLoop a
        (rewardPerVote a reward) a.candidateOwnerProgramHashes
        (rewardLoop a (individualBlockConfirmReward a reward)
          (rewardPerVote a reward) a.currentOwnerProgramHashes
          (a.arbitersRoundReward.getD []) 0).1
        (rewardLoop a (individualBlockConfirmReward a reward)
          (rewardPerVote a reward) a.currentOwnerProgramHashes
          (a.arbitersRoundReward.getD []) 0).2).1 },
      Except.ok
        (candLoop a (rewardPerVote a reward) a.candidateOwnerProgramHashes
          (rewardLoop a (individualBlockConfirmReward a reward)
            (rewardPerVote a reward) a.currentOwnerProgramHashes
            (a.arbitersRoundReward.getD []) 0).1
          (rewardLoop a (individualBlockConfirmReward a reward)
            (rewardPerVote a reward) a.currentOwnerProgramHashes
            (a.arbitersRoundReward.getD []) 0).2).2)

/-- The first two lines of `distributeDPOSReward`: replace
`arbitersRoundReward` by a fresh map holding `CRCAddress ↦ 0`. -/
def freshRoundState (a : Arbitrators) : Arbitrators :=
  { a with arbitersRoundReward := some (alSet [] a.crcAddress 0) }

/-- `distributeDPOSReward` of `arbitrators.go:313`: replace the map by a
fresh one holding `CRCAddress ↦ 0` (`freshRoundState`), run the
distribution, and set `finalRoundChange = reward - realDPOSReward`,
failing when negative. -/
def distributeDPOSReward (a : Arbitrators) (reward : ℤ) :
    Except String Arbitrators :=
  let r := distributeWithNormalArbitrators (freshRoundState a) reward
  match r.2 with
  | Except.error e => Except.error e
  | Except.ok realDPOSReward =>
    if reward - realDPOSReward < 0 then
      Except.error "real dpos reward more than reward limit"
    else Except.ok { r.1 with finalRoundChange := reward - realDPOSReward }

/-- `clearingDPOSReward` of `arbitrators.go:287`. -/
def clearingDPOSReward (a : Arbitrators) (block : Block)
    (smoothClearing : Bool) : Except String Arbitrators :=
  if block.height = a.clearingHeight then Except.ok a
  else if block.height + 1 ≤ a.publicDPOSHeight then
    Except.ok { a with accumulativeReward := getBlockDPOSReward a block }
  else
    match distributeDPOSReward a (if smoothClearing then
        a.accumulativeReward + getBlockDPOSReward a block
      else a.accumulativeReward) with
    | Except.error e => Except.error e
    | Except.ok a1 =>
      Except.ok { a1 with
        accumulativeReward := if smoothClearing then 0 else getBlockDPOSReward a block
        clearingHeight := block.height }

/-- Insertion into a sorted list, for the lexicographic sort of
`changeCurrentArbitrators` (abstracted to the order on `ℕ`). -/
def sortedInsert (x : ℕ) : List ℕ → List ℕ
  | [] => [x]
  | y :: t => if x ≤ y then x :: y :: t else y :: sortedInsert x t

/-- The `sort.Slice` call of `changeCurrentArbitrators`, modelled as an
insertion sort over the abstracted keys. -/
def sortKeys : List ℕ → List ℕ
  | [] => []
  | x :: t => sortedInsert x (sortKeys t)

/-- `changeCurrentArbitrators` of `arbitrators.go:627`: promote the `next*`
slates to `current*`, sort the current arbitrators, and reset
`dutyIndex` to 0 (the Go function always returns `nil`). -/
def changeCurrentArbitrators (a : Arbitrators) : Arbitrators :=
  { a with
    currentArbitrators := sortKeys a.nextArbitrators
    currentCandidates := a.nextCandidates
    currentOwnerProgramHashes := a.nextOwnerProgramHashes
    candidateOwnerProgramHashes := a.nextCandidateOwnerProgramHashes
    dutyIndex := 0 }

/-- Modelled from the spec: the outcome of `updateNextArbitrators`
(`arbitrators.go:641`).  Its committee selection and vote snapshot read the
producer registry (`State`), which is outside the covered sources; the
oracle supplies the values the function writes into the `next*` fields and
the vote snapshot, or a failure.  The function writes exactly these fields
and in particular never touches `dutyIndex`, the `current*` slates or the
reward ledger. -/
structure UpdOracle where
  fail : Bool
  nextArbitrators : List ℕ
  nextCandidates : List ℕ
  ownerVotesInRound : ℕ → ℤ
  totalVotesInRound : ℤ
  nextOwnerProgramHashes : List ℕ
  nextCandidateOwnerProgramHashes : List ℕ

set_option linter.unusedVariables false in
/-- `updateNextArbitrators` of `arbitrators.go:641`, with its
registry-driven selection abstracted by an `UpdOracle` (see there).
The `height` argument only feeds the selection, hence only the oracle. -/
def updateNextArbitrators (o : UpdOracle) (height : ℕ) (a : Arbitrators) :
    Except String Arbitrators :=
  if o.fail then Except.error "update next arbiters failed"
  else
    Except.ok { a with
      nextArbitrators := o.nextArbitrators
      nextCandidates := o.nextCandidates
      ownerVotesInRound := o.ownerVotesInRound
      totalVotesInRound := o.totalVotesInRound
      nextOwnerProgramHashes := o.nextOwnerProgramHashes
      nextCandidateOwnerProgramHashes := o.nextCandidateOwnerProgramHashes }

/-- `NormalChange` of `arbitrators.go:227`: promote, then rebuild the next
slate. -/
def NormalChange (o : UpdOracle) (height : ℕ) (a : Arbitrators) :
    Except String Arbitrators :=
  updateNextArbitrators o (height + 1) (changeCurrentArbitrators a)

/-- `IncreaseChainHeight` of `arbitrators.go:241`.  The Go code panics when
a change fails; the model returns the error.  In every non-error path the
`illegalBlocksPayloadHashes` table is re-made empty afterwards. -/
def IncreaseChainHeight (o : UpdOracle) (block : Block) (a : Arbitrators) :
    Except String Arbitrators :=
  match
    match (getChangeType a (block.height + 1)).1 with
    | ChangeType.updateNext =>
      updateNextArbitrators o (getChangeType a (block.height + 1)).2 a
    | ChangeType.normalChange =>
      match clearingDPOSReward a block true with
      | Except.error e => Except.error e
      | Except.ok a1 => NormalChange o block.height a1
    | ChangeType.none =>
      Except.ok { accumulateReward a block with
        dutyIndex := (accumulateReward a block).dutyIndex + 1 }
  with
  | Except.error e => Except.error e
  | Except.ok a2 => Except.ok { a2 with illegalBlocksPayloadHashes := [] }

/-- `ForceChange` of `arbitrators.go:185`: clear the pending reward against
the best block (supplied by the host), rebuild the next slate for
`height + 1`, and promote it. -/
def ForceChange (o : UpdOracle) (bestBlock : Except String Block)
    (height : ℕ) (a : Arbitrators) : Except String Arbitrators :=
  match bestBlock with
  | Except.error e => Except.error e
  | Except.ok block =>
    match clearingDPOSReward a block false with
    | Except.error e => Except.error e
    | Except.ok a1 =>
      match updateNextArbitrators o (height + 1) a1 with
      | Except.error e => Except.error e
      | Except.ok a2 => Except.ok (changeCurrentArbitrators a2)

/-- `GetArbitersRoundReward` of `arbitrators.go:168` (a `nil` map is
`Option.none`). -/
def GetArbitersRoundReward (a : Arbitrators) : Option (List (ℕ × ℤ)) :=
  a.arbitersRoundReward

/-- `GetFinalRoundChange` of `arbitrators.go:176`. -/
def GetFinalRoundChange (a : Arbitrators) : ℤ :=
  a.finalRoundChange

/-- The special payloads dispatched by `ProcessSpecialTxPayload`
(`arbitrators.go:118`); `other` stands for every payload type outside the
three named ones, and each carries the `Hash()` of the payload. -/
inductive SpecialPayload where
  | dposIllegalBlocks (hash : ℕ)
  | dposIllegalProposals (hash : ℕ)
  | inactiveArbitrators (hash : ℕ)
  | other
deriving DecidableEq

/-- Go map insert `m[h] = nil` on a hash set modelled as a list. -/
def hashInsert (l : List ℕ) (h : ℕ) : List ℕ :=
  if h ∈ l then l else l ++ [h]

/-- `ProcessSpecialTxPayload` of `arbitrators.go:118`.
`AddInactivePayload` (degradation state, outside the covered sources) is
modelled from the spec: it records a not-yet-seen `InactiveArbitrators`
payload hash and reports `false` on a duplicate, upon which the Go code
returns `nil` early.  `a.State.ProcessSpecialTxPayload` acts only on the
producer registry, which this state does not carry. -/
def ProcessSpecialTxPayload (o : UpdOracle) (bestBlock : Except String Block)
    (p : SpecialPayload) (height : ℕ) (a : Arbitrators) :
    Except String Arbitrators :=
  match p with
  | SpecialPayload.dposIllegalBlocks h =>
    ForceChange o bestBlock height
      { a with illegalBlocksPayloadHashes := hashInsert a.illegalBlocksPayloadHashes h }
  | SpecialPayload.inactiveArbitrators h =>
    if h ∈ a.inactiveTxs then Except.ok a
    else ForceChange o bestBlock height
      { a with inactiveTxs := hashInsert a.inactiveTxs h }
  | _ => Except.error "[ProcessSpecialTxPayload] invalid payload type"

/-- The first loop of `CheckDPOSIllegalTx`: `foundMap[k] = false` for every
pending hash. -/
def initFoundMap : List ℕ → List (ℕ × Bool) → List (ℕ × Bool)
  | [], m => m
  | k :: t, m => initFoundMap t (alSet m k false)

/-- The second loop of `CheckDPOSIllegalTx`: mark the payload hash of every
illegal-block transaction of the block as found. -/
def markFound : List Transaction → List (ℕ × Bool) → List (ℕ × Bool)
  | [], m => m
  | tx :: t, m =>
    markFound t (if tx.isIllegalBlockTx then alSet m tx.payloadHash true else m)

/-- `CheckDPOSIllegalTx` of `arbitrators.go:89`; `some err` models a
non-`nil` error return. -/
def CheckDPOSIllegalTx (a : Arbitrators) (block : Block) : Option String :=
  let hashes := a.illegalBlocksPayloadHashes
  if hashes.isEmpty then Option.none
  else
    let fm := markFound block.transactions (initFoundMap hashes [])
    if fm.any (fun p => !p.2) then
      some "expect an illegal blocks transaction in this block"
    else Option.none

/-- The payload hashes of the block's illegal-block transactions (used to
state what `CheckDPOSIllegalTx` requires). -/
def illegalTxHashes (block : Block) : List ℕ :=
  (block.transactions.filter Transaction.isIllegalBlockTx).map
    Transaction.payloadHash

/-- `GetNextOnDutyArbitratorV` of `arbitrators.go:556`.  The pre-H1 legacy
rule `getNextOnDutyArbitratorV0` lives outside the covered sources and is
abstracted by the parameter `v0`. -/
def GetNextOnDutyArbitratorV (v0 : ℕ → ℕ → Option ℕ) (a : Arbitrators)
    (height offset : ℕ) : Option ℕ :=
  if a.crcOnlyDPOSHeight ≤ height then
    let arbitrators := a.currentArbitrators
    if arbitrators.isEmpty then Option.none
    else arbitrators[(a.dutyIndex + offset) % arbitrators.length]?
  else v0 height offset

/-- Fuelled base-2 floor-logarithm on `ℕ` (`lg2F fuel n = ⌊log₂ n⌋` for
`1 ≤ n < 2^(fuel+1)`); structural recursion so that it reduces inside
`decide`. -/
def lg2F : ℕ → ℕ → ℕ
  | 0, _ => 0
  | fuel + 1, n => if n ≤ 1 then 0 else lg2F fuel (n / 2) + 1

/-- The Go expression `int(float64(n) * 2 / 3)` of
`GetArbitersMajorityCount`, simulated exactly in integer arithmetic.
`float64(n) * 2` is exact for every committee size; the division by 3
performs one IEEE-754 round-to-nearest.  With `e` the binade exponent of
`2n/3` (for `n ≥ 1` it is `≥ -1`) and `s = 52 - e`, the correctly rounded
quotient has mantissa `round(2n·2^s/3)` — never a round-to-even tie,
since a scaled third cannot be a half-integer — and `int(·)` truncates
the value `mantissa / 2^s` toward zero. -/
def floatTwoThirdsOf (n : ℕ) : ℕ :=
  let e : ℤ := if 2 * n < 3 then -1 else (lg2F 64 (2 * n / 3) : ℤ)
  let s : ℕ := (52 - e).toNat
  let mantissa : ℕ := (2 * (2 * n * 2 ^ s) + 3) / 6
  mantissa / 2 ^ s

/-- `GetArbitersMajorityCount` of `arbitrators.go:580`:
`int(float64(len(currentArbitrators)) * 2 / 3)` (see `floatTwoThirdsOf`
for the float model). -/
def GetArbitersMajorityCount (a : Arbitrators) : ℤ :=
  (floatTwoThirdsOf a.currentArbitrators.length : ℤ)

/-- `HasArbitersMajorityCount` of `arbitrators.go:588`. -/
def HasArbitersMajorityCount (a : Arbitrators) (num : ℕ) : Bool :=
  decide (GetArbitersMajorityCount a < (num : ℤ))

/-- `HasArbitersMinorityCount` of `arbitrators.go:592` (the Go subtraction
is over `int`, hence over `ℤ` here). -/
def HasArbitersMinorityCount (a : Arbitrators) (num : ℕ) : Bool :=
  decide ((a.currentArbitrators.length : ℤ) - GetArbitersMajorityCount a ≤ (num : ℤ))

/-- The `ViewChangesCountDown` of `dpos/manager/countdown.go`, reduced to
the values its `IsTimeOut` reads: the dispatcher's current height, the
chain's `PublicDPOSHeight`, the consensus view offset, the arbiter count
and the accumulated timeout factor (all `uint32`/`int` in Go). -/
structure ViewChangesCountDown where
  currentHeight : ℕ
  publicDPOSHeight : ℕ
  viewOffset : ℕ
  arbitersCount : ℕ
  timeoutRefactor : ℕ
deriving DecidableEq

/-- `IsTimeOut` of `countdown.go:43`.  The comparison side
`uint32(count) * timeoutRefactor` is `uint32` arithmetic, hence the
reductions modulo `2^32`. -/
def ViewChangesCountDown.IsTimeOut (c : ViewChangesCountDown) : Bool :=
  if c.currentHeight ≤ c.publicDPOSHeight ∨ c.timeoutRefactor = 0 then false
  else
    decide (c.arbitersCount % 4294967296 * c.timeoutRefactor % 4294967296
      ≤ c.viewOffset)

/-! ## Theorems -/

/-- The integer simulation of `float64(n) * 2 / 3` truncated to `int`
agrees with the exact `floor(n·2/3)` for every committee size in the
claimed range `[1, 256]`. -/
theorem floatTwoThirdsOf_eq : ∀ n : ℕ, n < 257 → 1 ≤ n →
    floatTwoThirdsOf n = n * 2 / 3 := by decide

/-- A neutral `arbitrators` state used to build concrete witness states:
H1 = 10, H2 = 100, `PreConnectOffset` = 2, `RewardPerBlock` = 20 sELA,
CRC address 0, everything else empty. -/
def baseSt : Arbitrators :=
  { crcOnlyDPOSHeight := 10
    publicDPOSHeight := 100
    preConnectOffset := 2
    rewardPerBlock := 20
    crcAddress := 0
    dutyIndex := 0
    currentArbitrators := []
    currentCandidates := []
    currentOwnerProgramHashes := []
    candidateOwnerProgramHashes := []
    nextOwnerProgramHashes := []
    nextCandidateOwnerProgramHashes := []
    ownerVotesInRound := fun _ => 0
    totalVotesInRound := 0
    nextArbitrators := []
    nextCandidates := []
    crcProgramHashes := []
    accumulativeReward := 0
    finalRoundChange := 0
    clearingHeight := 0
    arbitersRoundReward := Option.none
    illegalBlocksPayloadHashes := []
    inactiveTxs := [] }

/-- An oracle for `updateNextArbitrators` that succeeds and installs an
empty next slate. -/
def okOracle : UpdOracle :=
  { fail := false
    nextArbitrators := []
    nextCandidates := []
    ownerVotesInRound := fun _ => 0
    totalVotesInRound := 0
    nextOwnerProgramHashes := []
    nextCandidateOwnerProgramHashes := [] }

/-- C5: for every committee size `n ∈ [1, 256]`, `GetArbitersMajorityCount`
returns `floor(n·2/3)`; `HasArbitersMajorityCount m` holds exactly when
`m > floor(n·2/3)`; and `HasArbitersMinorityCount m` holds exactly when
`m ≥ n - floor(n·2/3)`. -/
theorem majority_arithmetic (a : Arbitrators) (num : ℕ)
    (h1 : 1 ≤ a.currentArbitrators.length)
    (h2 : a.currentArbitrators.length ≤ 256) :
    GetArbitersMajorityCount a = ((a.currentArbitrators.length * 2 / 3 : ℕ) : ℤ)
    ∧ (HasArbitersMajorityCount a num = true ↔
        a.currentArbitrators.length * 2 / 3 < num)
    ∧ (HasArbitersMinorityCount a num = true ↔
        a.currentArbitrators.length - a.currentArbitrators.length * 2 / 3 ≤ num) := by
  have key : floatTwoThirdsOf a.currentArbitrators.length
      = a.currentArbitrators.length * 2 / 3 :=
    floatTwoThirdsOf_eq a.currentArbitrators.length (by omega) h1
  have hle : a.currentArbitrators.length * 2 / 3 ≤ a.currentArbitrators.length := by
    omega
  refine ⟨?_, ?_, ?_⟩
  · rw [GetArbitersMajorityCount, key]
  · rw [HasArbitersMajorityCount, GetArbitersMajorityCount, key]
    simp
    exact_mod_cast Iff.rfl
  · rw [HasArbitersMinorityCount, GetArbitersMajorityCount, key]
    simp
    omega

/-- C5 witness: a committee of three arbitrators has majority count 2, and
the majority/minority threshold tests behave as claimed for `num = 3`. -/
theorem majority_arithmetic_witness :
    GetArbitersMajorityCount { baseSt with currentArbitrators := [5, 6, 7] }
      = (({ baseSt with currentArbitrators := [5, 6, 7] } :
          Arbitrators).currentArbitrators.length * 2 / 3 : ℕ)
    ∧ (HasArbitersMajorityCount { baseSt with currentArbitrators := [5, 6, 7] } 3 = true ↔
        ({ baseSt with currentArbitrators := [5, 6, 7] } :
          Arbitrators).currentArbitrators.length * 2 / 3 < 3)
    ∧ (HasArbitersMinorityCount { baseSt with currentArbitrators := [5, 6, 7] } 3 = true ↔
        ({ baseSt with currentArbitrators := [5, 6, 7] } :
            Arbitrators).currentArbitrators.length -
          ({ baseSt with currentArbitrators := [5, 6, 7] } :
            Arbitrators).currentArbitrators.length * 2 / 3 ≤ 3) :=
  majority_arithmetic { baseSt with currentArbitrators := [5, 6, 7] } 3
    (by decide) (by decide)

/-- C9 counterexample: at current height 11 > `PublicDPOSHeight` = 10,
view offset 5, committee size 3 and `timeoutRefactor = 0`, the claimed
equivalence "`IsTimeOut` ↔ height > H2 ∧ viewOffset ≥ count·factor" fails:
the right side holds (5 ≥ 3·0) but `IsTimeOut` returns `false` because
the code additionally requires a non-zero timeout factor. -/
theorem isTimeOut_claim_counterexample :
    ¬ ((ViewChangesCountDown.IsTimeOut ⟨11, 10, 5, 3, 0⟩ = true) ↔
      (10 < 11 ∧ 3 * 0 ≤ 5)) := by decide

/-- C9 (amended): `IsTimeOut` returns `true` iff the current height is
strictly greater than `PublicDPOSHeight`, the timeout factor is non-zero,
and the view offset is at least the committee size multiplied by the
timeout factor (in `uint32` arithmetic). -/
theorem isTimeOut_iff (c : ViewChangesCountDown) :
    c.IsTimeOut = true ↔
      (c.publicDPOSHeight < c.currentHeight ∧ c.timeoutRefactor ≠ 0 ∧
        c.arbitersCount % 4294967296 * c.timeoutRefactor % 4294967296
          ≤ c.viewOffset) := by
  rw [ViewChangesCountDown.IsTimeOut]
  split_ifs with h
  · simp only [Bool.false_eq_true, false_iff]
    rcases h with h | h
    · intro hc
      omega
    · intro hc
      exact hc.2.1 h
  · push_neg at h
    simp [h.1, h.2]

/-- C7: at heights `≥ CRCOnlyDPOSHeight` (H1) and for a non-empty current
committee, the on-duty lookup returns the element of
`currentArbitrators` at index `(dutyIndex + offset) mod length`. -/
theorem onDuty_formula (v0 : ℕ → ℕ → Option ℕ) (a : Arbitrators)
    (height offset : ℕ)
    (h1 : a.crcOnlyDPOSHeight ≤ height)
    (h2 : a.currentArbitrators ≠ []) :
    GetNextOnDutyArbitratorV v0 a height offset =
      a.currentArbitrators[(a.dutyIndex + offset) % a.currentArbitrators.length]? := by
  rw [GetNextOnDutyArbitratorV, if_pos h1]
  simp [List.isEmpty_iff, h2]

/-- C7 witness: with committee `[4, 5, 6]`, duty index 1 and offset 4 at
height 10 ≥ H1 = 10, the lookup returns entry `(1+4) mod 3 = 2`. -/
theorem onDuty_formula_witness :
    GetNextOnDutyArbitratorV (fun _ _ => Option.none)
        { baseSt with currentArbitrators := [4, 5, 6], dutyIndex := 1 } 10 4 =
      ({ baseSt with currentArbitrators := [4, 5, 6], dutyIndex := 1 } :
          Arbitrators).currentArbitrators[(({ baseSt with currentArbitrators := [4, 5, 6], dutyIndex := 1 } :
          Arbitrators).dutyIndex + 4) %
        ({ baseSt with currentArbitrators := [4, 5, 6], dutyIndex := 1 } :
          Arbitrators).currentArbitrators.length]? :=
  onDuty_formula (fun _ _ => Option.none)
    { baseSt with currentArbitrators := [4, 5, 6], dutyIndex := 1 } 10 4
    (by decide) (by decide)

/-- C2: whenever `PreConnectOffset` does not exceed the two version
checkpoints and both fit in `uint32`, `getChangeType` resolves exactly as
the spec's rotation schedule states, checkpoint by checkpoint and with
`none` in every remaining case (`scheduleChangeType` transcribes the
schedule literally). -/
theorem changeType_schedule (a : Arbitrators) (height : ℕ)
    (h1 : a.preConnectOffset ≤ a.crcOnlyDPOSHeight)
    (h2 : a.preConnectOffset ≤ a.publicDPOSHeight)
    (h3 : a.crcOnlyDPOSHeight < 4294967296)
    (h4 : a.publicDPOSHeight < 4294967296) :
    getChangeType a height = scheduleChangeType a height := by
  have u1 : usub32 a.crcOnlyDPOSHeight a.preConnectOffset
      = a.crcOnlyDPOSHeight - a.preConnectOffset := by
    rw [usub32]; omega
  have u2 : usub32 a.publicDPOSHeight a.preConnectOffset
      = a.publicDPOSHeight - a.preConnectOffset := by
    rw [usub32]; omega
  rw [getChangeType, scheduleChangeType, u1, u2]

/-- C2 witness: at the concrete state `baseSt` (H1 = 10, H2 = 100, offset
2) and height 8 = H1 - offset the code and the schedule agree (and the
equality is established for the full schedule function). -/
theorem changeType_schedule_witness :
    getChangeType baseSt 8 = scheduleChangeType baseSt 8 :=
  changeType_schedule baseSt 8 (by decide) (by decide) (by decide) (by decide)

theorem alGet_initFoundMap (L : List ℕ) (m : List (ℕ × Bool)) (k : ℕ) :
    alGet (initFoundMap L m) k = if k ∈ L then some false else alGet m k := by
  induction L generalizing m with
  | nil => simp [initFoundMap]
  | cons h t ih =>
    rw [initFoundMap, ih]
    by_cases hkt : k ∈ t
    · simp [hkt]
    · by_cases hkh : k = h
      · simp [hkt, hkh, alGet_alSet]
      · simp [hkt, hkh, alGet_alSet]

theorem nodup_keys_initFoundMap (L : List ℕ) (m : List (ℕ × Bool))
    (h : (keysOf m).Nodup) : (keysOf (initFoundMap L m)).Nodup := by
  induction L generalizing m with
  | nil => exact h
  | cons x t ih =>
    rw [initFoundMap]
    exact ih _ (nodup_keys_alSet m x false h)

theorem alGet_markFound (txs : List Transaction) (m : List (ℕ × Bool)) (k : ℕ) :
    alGet (markFound txs m) k =
      if k ∈ (txs.filter Transaction.isIllegalBlockTx).map Transaction.payloadHash
      then some true else alGet m k := by
  induction txs generalizing m with
  | nil => simp [markFound]
  | cons tx t ih =>
    rw [markFound, ih]
    by_cases hil : tx.isIllegalBlockTx
    · by_cases hkt : k ∈ (t.filter Transaction.isIllegalBlockTx).map Transaction.payloadHash
      · simp [hil, hkt]
      · by_cases hkh : k = tx.payloadHash
        · simp [hil, hkt, hkh, alGet_alSet]
        · simp [hil, hkt, hkh, alGet_alSet]
    · rw [List.filter_cons_of_neg hil, if_neg hil]

theorem nodup_keys_markFound (txs : List Transaction) (m : List (ℕ × Bool))
    (h : (keysOf m).Nodup) : (keysOf (markFound txs m)).Nodup := by
  induction txs generalizing m with
  | nil => exact h
  | cons tx t ih =>
    rw [markFound]
    by_cases hil : tx.isIllegalBlockTx
    · simp only [hil, if_true]
      exact ih _ (nodup_keys_alSet m tx.payloadHash true h)
    · simp only [hil]
      simp only [Bool.false_eq_true, if_false]
      exact ih _ h

/-- C4: `CheckDPOSIllegalTx` returns an error if and only if the pending
illegal-evidence table is non-empty and some pending expected hash does
not appear among the payload hashes of the block's illegal-block
transactions; with an empty table it returns `nil` for every block. -/
theorem checkIllegalTx_iff (a : Arbitrators) (block : Block) :
    CheckDPOSIllegalTx a block ≠ Option.none ↔
      (a.illegalBlocksPayloadHashes ≠ [] ∧
        ∃ h ∈ a.illegalBlocksPayloadHashes, h ∉ illegalTxHashes block) := by
  rw [CheckDPOSIllegalTx]
  by_cases he : a.illegalBlocksPayloadHashes.isEmpty
  · rw [List.isEmpty_iff] at he
    simp [he]
  · rw [if_neg he]
    rw [List.isEmpty_iff] at he
    have hnd : (keysOf (markFound block.transactions
        (initFoundMap a.illegalBlocksPayloadHashes []))).Nodup :=
      nodup_keys_markFound _ _ (nodup_keys_initFoundMap _ _ (by simp))
    have main : ((markFound block.transactions
          (initFoundMap a.illegalBlocksPayloadHashes [])).any (fun p => !p.2)) = true ↔
        ∃ h ∈ a.illegalBlocksPayloadHashes, h ∉ illegalTxHashes block := by
      rw [List.any_eq_true]
      constructor
      · rintro ⟨p, hp, hfalse⟩
        have hpv : p.2 = false := by
          cases hv : p.2
          · rfl
          · rw [hv] at hfalse; simp at hfalse
        have hget : alGet (markFound block.transactions
            (initFoundMap a.illegalBlocksPayloadHashes [])) p.1 = some false := by
          have := alGet_of_mem_nodup _ p.1 p.2 hnd (by simpa using hp)
          rw [hpv] at this
          exact this
        rw [alGet_markFound] at hget
        by_cases hil : p.1 ∈ (block.transactions.filter
            Transaction.isIllegalBlockTx).map Transaction.payloadHash
        · rw [if_pos hil] at hget
          simp at hget
        · rw [if_neg hil] at hget
          rw [alGet_initFoundMap] at hget
          by_cases hpend : p.1 ∈ a.illegalBlocksPayloadHashes
          · exact ⟨p.1, hpend, by simpa [illegalTxHashes] using hil⟩
          · rw [if_neg hpend] at hget
            simp [alGet] at hget
      · rintro ⟨h, hpend, hmiss⟩
        have hget : alGet (markFound block.transactions
            (initFoundMap a.illegalBlocksPayloadHashes [])) h = some false := by
          rw [alGet_markFound, if_neg (by simpa [illegalTxHashes] using hmiss),
            alGet_initFoundMap, if_pos hpend]
        have hmem := mem_of_alGet _ h false hget
        exact ⟨(h, false), hmem, rfl⟩
    by_cases hany : ((markFound block.transactions
        (initFoundMap a.illegalBlocksPayloadHashes [])).any (fun p => !p.2)) = true
    · rw [if_pos hany]
      constructor
      · intro _
        exact ⟨he, main.mp hany⟩
      · intro _
        simp
    · rw [if_neg hany]
      constructor
      · intro hc
        exact absurd rfl hc
      · rintro ⟨-, hex⟩
        intro _
        exact absurd (main.mpr hex) hany

theorem updateNextArbitrators_frame (o : UpdOracle) (h : ℕ) (a a1 : Arbitrators)
    (hok : updateNextArbitrators o h a = Except.ok a1) :
    a1.dutyIndex = a.dutyIndex ∧ a1.accumulativeReward = a.accumulativeReward ∧
      a1.arbitersRoundReward = a.arbitersRoundReward ∧
      a1.finalRoundChange = a.finalRoundChange := by
  rw [updateNextArbitrators] at hok
  split_ifs at hok
  injection hok with h1
  subst h1
  exact ⟨rfl, rfl, rfl, rfl⟩

theorem distributeWithNormalArbitrators_frame (a : Arbitrators) (reward : ℤ) :
    (distributeWithNormalArbitrators a reward).1.dutyIndex = a.dutyIndex ∧
    (distributeWithNormalArbitrators a reward).1.accumulativeReward
      = a.accumulativeReward ∧
    (distributeWithNormalArbitrators a reward).1.finalRoundChange
      = a.finalRoundChange ∧
    (distributeWithNormalArbitrators a reward).1.clearingHeight
      = a.clearingHeight := by
  rw [distributeWithNormalArbitrators]
  split_ifs <;> exact ⟨rfl, rfl, rfl, rfl⟩

theorem distributeDPOSReward_frame (a a1 : Arbitrators) (reward : ℤ)
    (hok : distributeDPOSReward a reward = Except.ok a1) :
    a1.dutyIndex = a.dutyIndex ∧ a1.accumulativeReward = a.accumulativeReward ∧
      a1.clearingHeight = a.clearingHeight := by
  rw [distributeDPOSReward] at hok
  have hw := distributeWithNormalArbitrators_frame (freshRoundState a) reward
  split at hok
  · exact absurd hok (by simp)
  · split at hok
    · exact absurd hok (by simp)
    · injection hok with h1
      subst h1
      exact ⟨hw.1, hw.2.1, hw.2.2.2⟩

theorem clearingDPOSReward_frame (a a1 : Arbitrators) (block : Block)
    (smooth : Bool)
    (hok : clearingDPOSReward a block smooth = Except.ok a1) :
    a1.dutyIndex = a.dutyIndex := by
  rw [clearingDPOSReward] at hok
  split_ifs at hok
  · injection hok with h1
    subst h1
    rfl
  · injection hok with h1
    subst h1
    rfl
  · split at hok
    · exact absurd hok (by simp)
    · rename_i a3 heq
      injection hok with h1
      subst h1
      exact (distributeDPOSReward_frame _ _ _ heq).1
  · split at hok
    · exact absurd hok (by simp)
    · rename_i a3 heq
      injection hok with h1
      subst h1
      exact (distributeDPOSReward_frame _ _ _ heq).1

/-- C6: on every processed block whose resolved change type is `none`,
`dutyIndex` increases by exactly 1; and whenever the block resolves to
`normalChange` (promotion of the next arbitrators to current),
`dutyIndex` is 0 afterwards — as is always the case immediately after
`changeCurrentArbitrators` itself. -/
theorem dutyIndex_step (o : UpdOracle) (block : Block) (a a2 : Arbitrators)
    (hok : IncreaseChainHeight o block a = Except.ok a2) :
    ((getChangeType a (block.height + 1)).1 = ChangeType.none →
      a2.dutyIndex = a.dutyIndex + 1)
    ∧ ((getChangeType a (block.height + 1)).1 = ChangeType.normalChange →
      a2.dutyIndex = 0)
    ∧ (changeCurrentArbitrators a).dutyIndex = 0 := by
  rw [IncreaseChainHeight] at hok
  refine ⟨?_, ?_, rfl⟩
  · intro hct
    rw [hct] at hok
    simp only at hok
    injection hok with h1
    subst h1
    have hacc : (accumulateReward a block).dutyIndex = a.dutyIndex := by
      rw [accumulateReward]
      split_ifs <;> rfl
    simp only
    rw [hacc]
  · intro hct
    rw [hct] at hok
    simp only at hok
    cases hcl : clearingDPOSReward a block true with
    | error e =>
      rw [hcl] at hok
      simp at hok
    | ok a1 =>
      rw [hcl] at hok
      simp only [NormalChange, updateNextArbitrators] at hok
      split_ifs at hok
      dsimp only at hok
      injection hok with h1
      subst h1
      rfl

/-- C10: processing a block with change type `none` at a height strictly
above `PublicDPOSHeight` resets the last settled payout ledger:
afterwards `GetArbitersRoundReward` returns the `nil` map and
`GetFinalRoundChange` returns 0. -/
theorem roundReward_reset (o : UpdOracle) (block : Block) (a a2 : Arbitrators)
    (hct : (getChangeType a (block.height + 1)).1 = ChangeType.none)
    (hh : a.publicDPOSHeight < block.height)
    (hok : IncreaseChainHeight o block a = Except.ok a2) :
    GetArbitersRoundReward a2 = Option.none ∧ GetFinalRoundChange a2 = 0 := by
  rw [IncreaseChainHeight] at hok
  rw [hct] at hok
  simp only at hok
  injection hok with h1
  subst h1
  rw [GetArbitersRoundReward, GetFinalRoundChange]
  constructor
  · show (accumulateReward a block).arbitersRoundReward = Option.none
    rw [accumulateReward, if_neg (by omega)]
  · show (accumulateReward a block).finalRoundChange = 0
    rw [accumulateReward, if_neg (by omega)]

/-- C8 (amended): on a block whose resolved change type is `none`,
`accumulativeReward` grows by exactly `ceil((Σ fees + RewardPerBlock) ·
0.35)` when the height is strictly above `PublicDPOSHeight`, and is left
unchanged when the height is at most `PublicDPOSHeight`.  (The original
claim's unconditional second part fails at the `normalChange`
checkpoints, where `clearingDPOSReward` overwrites the accumulator.) -/
theorem accumulateReward_exact (o : UpdOracle) (block : Block)
    (a a2 : Arbitrators)
    (hct : (getChangeType a (block.height + 1)).1 = ChangeType.none)
    (hok : IncreaseChainHeight o block a = Except.ok a2) :
    (a.publicDPOSHeight < block.height →
      a2.accumulativeReward = a.accumulativeReward +
        ⌈(((block.transactions.map Transaction.fee).sum + a.rewardPerBlock : ℤ) : ℚ)
          * (35 / 100)⌉)
    ∧ (block.height ≤ a.publicDPOSHeight →
      a2.accumulativeReward = a.accumulativeReward) := by
  rw [IncreaseChainHeight] at hok
  rw [hct] at hok
  simp only at hok
  injection hok with h1
  subst h1
  constructor
  · intro hh
    show (accumulateReward a block).accumulativeReward = _
    rw [accumulateReward, if_neg (by omega)]
    rfl
  · intro hh
    show (accumulateReward a block).accumulativeReward = _
    rw [accumulateReward, if_pos hh]

/-- A block at height 150 (above H2 = 100) with no transactions. -/
def blk150 : Block := { height := 150, transactions := [] }

/-- The state after processing `blk150` from `baseSt`: the block resolves
to change type `none`, so the DPoS share `ceil(20 · 0.35) = 7` is
accumulated and the duty index advances. -/
def res150 : Arbitrators := { baseSt with accumulativeReward := 7, dutyIndex := 1 }

/-- Concrete evaluation of a `none`-type block processing, shared by the
witnesses below. -/
theorem increase150_eval :
    IncreaseChainHeight okOracle blk150 baseSt = Except.ok res150 := by
  rw [IncreaseChainHeight]
  rw [(by decide : (getChangeType baseSt (blk150.height + 1)).1 = ChangeType.none)]
  dsimp only
  rw [accumulateReward, if_neg (by decide)]
  simp only [res150, baseSt, blk150, getBlockDPOSReward]
  norm_num

/-- C6 witness: the concrete `none`-type run `blk150` advances `dutyIndex`
from 0 to 1, and the normalChange clause holds vacuously alongside the
direct `changeCurrentArbitrators` reset. -/
theorem dutyIndex_step_witness :
    ((getChangeType baseSt (blk150.height + 1)).1 = ChangeType.none →
      res150.dutyIndex = baseSt.dutyIndex + 1)
    ∧ ((getChangeType baseSt (blk150.height + 1)).1 = ChangeType.normalChange →
      res150.dutyIndex = 0)
    ∧ (changeCurrentArbitrators baseSt).dutyIndex = 0 :=
  dutyIndex_step okOracle blk150 baseSt res150 increase150_eval

/-- C10 witness: after the concrete `none`-type run `blk150` at height
150 > H2 = 100 the payout getters read back `nil` and 0. -/
theorem roundReward_reset_witness :
    GetArbitersRoundReward res150 = Option.none ∧ GetFinalRoundChange res150 = 0 :=
  roundReward_reset okOracle blk150 baseSt res150 (by decide) (by decide)
    increase150_eval

/-- C8 witness: the concrete `none`-type run `blk150` adds exactly
`ceil((0 + 20) · 0.35) = 7` to the accumulator. -/
theorem accumulateReward_exact_witness :
    (baseSt.publicDPOSHeight < blk150.height →
      res150.accumulativeReward = baseSt.accumulativeReward +
        ⌈(((blk150.transactions.map Transaction.fee).sum + baseSt.rewardPerBlock : ℤ) : ℚ)
          * (35 / 100)⌉)
    ∧ (blk150.height ≤ baseSt.publicDPOSHeight →
      res150.accumulativeReward = baseSt.accumulativeReward) :=
  accumulateReward_exact okOracle blk150 baseSt res150 (by decide) increase150_eval

/-- A block at height 9, one before the H1 = 10 checkpoint of `baseSt`. -/
def blk9 : Block := { height := 9, transactions := [] }

/-- C8 counterexample: processing the block at height 9 ≤ PublicDPOSHeight
(a `normalChange` checkpoint, `h+1 = H1`) does NOT leave
`accumulativeReward` unchanged: `clearingDPOSReward` overwrites the
accumulated 5 with the block's own share 7. -/
theorem lowHeight_reward_overwritten :
    IncreaseChainHeight okOracle blk9 { baseSt with accumulativeReward := 5 }
      = Except.ok { baseSt with accumulativeReward := 7 }
    ∧ blk9.height ≤ ({ baseSt with accumulativeReward := 5 } :
        Arbitrators).publicDPOSHeight
    ∧ (7 : ℤ) ≠ 5 := by
  have hcl : clearingDPOSReward { baseSt with accumulativeReward := 5 } blk9 true
      = Except.ok { baseSt with accumulativeReward := 7 } := by
    rw [clearingDPOSReward, if_neg (by decide), if_pos (by decide)]
    simp only [baseSt, blk9, getBlockDPOSReward]
    norm_num
  refine ⟨?_, by decide, by decide⟩
  rw [IncreaseChainHeight]
  rw [(by decide : (getChangeType { baseSt with accumulativeReward := 5 }
    (blk9.height + 1)).1 = ChangeType.normalChange)]
  dsimp only
  rw [hcl]
  dsimp only
  simp only [NormalChange, updateNextArbitrators, changeCurrentArbitrators,
    okOracle, baseSt, sortKeys]
  norm_num

/-- C3 counterexample: the claim says a `DPOSIllegalProposals` payload is
recorded and forces a committee change, but `ProcessSpecialTxPayload`
has no case for it — it falls into the `default` branch and returns the
invalid-payload error, touching nothing. -/
theorem processSpecial_proposals_rejected :
    ProcessSpecialTxPayload okOracle (Except.ok blk150)
        (SpecialPayload.dposIllegalProposals 5) 7 baseSt
      = Except.error "[ProcessSpecialTxPayload] invalid payload type" := rfl

/-- C3 (amended): `ProcessSpecialTxPayload` records a `DPOSIllegalBlocks`
hash as expected-in-next-block and then forces a committee change at the
given height; a fresh `InactiveArbitrators` payload is recorded in the
inactive-payload table and also forces a change, while a duplicate one
returns `nil` without forcing anything; `DPOSIllegalProposals` and every
other payload type yield the `InvalidSpecialPayload` error and leave the
state untouched. -/
theorem processSpecial_dispatch (o : UpdOracle) (bb : Except String Block)
    (h height : ℕ) (a : Arbitrators) :
    (ProcessSpecialTxPayload o bb (SpecialPayload.dposIllegalBlocks h) height a
      = ForceChange o bb height
          { a with illegalBlocksPayloadHashes :=
              hashInsert a.illegalBlocksPayloadHashes h })
    ∧ (h ∉ a.inactiveTxs →
      ProcessSpecialTxPayload o bb (SpecialPayload.inactiveArbitrators h) height a
        = ForceChange o bb height
            { a with inactiveTxs := hashInsert a.inactiveTxs h })
    ∧ (h ∈ a.inactiveTxs →
      ProcessSpecialTxPayload o bb (SpecialPayload.inactiveArbitrators h) height a
        = Except.ok a)
    ∧ (ProcessSpecialTxPayload o bb (SpecialPayload.dposIllegalProposals h) height a
      = Except.error "[ProcessSpecialTxPayload] invalid payload type")
    ∧ (ProcessSpecialTxPayload o bb SpecialPayload.other height a
      = Except.error "[ProcessSpecialTxPayload] invalid payload type") := by
  refine ⟨rfl, ?_, ?_, rfl, rfl⟩
  · intro hmem
    rw [ProcessSpecialTxPayload, if_neg hmem]
  · intro hmem
    rw [ProcessSpecialTxPayload, if_pos hmem]
/-- A state whose inactive-payload table already holds hash 9. -/
def st9i : Arbitrators := { baseSt with inactiveTxs := [9] }

/-- C3 witness: the dispatch equations at concrete inputs — payload hash 5
against `st9i` (whose inactive table holds only 9, so 5 is fresh), and
hash 9 against the same state for the duplicate case. -/
theorem processSpecial_dispatch_witness :
    (ProcessSpecialTxPayload okOracle (Except.ok blk150)
        (SpecialPayload.dposIllegalBlocks 5) 7 st9i
      = ForceChange okOracle (Except.ok blk150) 7
          { st9i with illegalBlocksPayloadHashes :=
              hashInsert st9i.illegalBlocksPayloadHashes 5 })
    ∧ (ProcessSpecialTxPayload okOracle (Except.ok blk150)
        (SpecialPayload.inactiveArbitrators 5) 7 st9i
      = ForceChange okOracle (Except.ok blk150) 7
          { st9i with inactiveTxs := hashInsert st9i.inactiveTxs 5 })
    ∧ (ProcessSpecialTxPayload okOracle (Except.ok blk150)
        (SpecialPayload.inactiveArbitrators 9) 7 st9i
      = Except.ok st9i)
    ∧ (ProcessSpecialTxPayload okOracle (Except.ok blk150)
        (SpecialPayload.dposIllegalProposals 5) 7 st9i
      = Except.error "[ProcessSpecialTxPayload] invalid payload type")
    ∧ (ProcessSpecialTxPayload okOracle (Except.ok blk150)
        SpecialPayload.other 7 st9i
      = Except.error "[ProcessSpecialTxPayload] invalid payload type") :=
  ⟨(processSpecial_dispatch okOracle (Except.ok blk150) 5 7 st9i).1,
    (processSpecial_dispatch okOracle (Except.ok blk150) 5 7 st9i).2.1
      (by decide),
    (processSpecial_dispatch okOracle (Except.ok blk150) 9 7 st9i).2.2.1
      (by decide),
    (processSpecial_dispatch okOracle (Except.ok blk150) 5 7 st9i).2.2.2.1,
    (processSpecial_dispatch okOracle (Except.ok blk150) 5 7 st9i).2.2.2.2⟩

theorem ratTrunc_nonneg (q : ℚ) (h : 0 ≤ q) : 0 ≤ ratTrunc q := by
  rw [ratTrunc, if_neg (not_lt.mpr h)]
  exact Int.floor_nonneg.mpr h

/-- Loop invariant for the per-arbitrator distribution loop: provided the
not-yet-processed non-CRC owner hashes are absent from the map and
distinct from each other and from the CRC address, the sum of the map
values grows exactly with `realDPOSReward`, every key of the result comes
from the initial map, the CRC address, or a non-CRC element of the list,
and all values stay non-negative. -/
theorem rewardLoop_spec (a : Arbitrators) (ibcr : ℤ) (rpv : ℚ)
    (hibcr : 0 ≤ ibcr)
    (hipr : ∀ h : ℕ, 0 ≤ ratTrunc ((a.ownerVotesInRound h : ℚ) * rpv)) :
    ∀ (L : List ℕ) (m : List (ℕ × ℤ)) (real : ℤ),
    (∀ h ∈ L, h ∉ a.crcProgramHashes → h ∉ keysOf m ∧ h ≠ a.crcAddress) →
    (L.filter (fun h => decide (h ∉ a.crcProgramHashes))).Nodup →
    (∀ p ∈ m, 0 ≤ p.2) →
    alSum (rewardLoop a ibcr rpv L m real).1 - alSum m
        = (rewardLoop a ibcr rpv L m real).2 - real
    ∧ (∀ k ∈ keysOf (rewardLoop a ibcr rpv L m real).1,
        k ∈ keysOf m ∨ k = a.crcAddress ∨ (k ∈ L ∧ k ∉ a.crcProgramHashes))
    ∧ (∀ p ∈ (rewardLoop a ibcr rpv L m real).1, 0 ≤ p.2) := by
  intro L
  induction L with
  | nil =>
    intro m real hdisj hnd hnn
    refine ⟨by simp [rewardLoop], ?_, ?_⟩
    · intro k hk
      exact Or.inl hk
    · intro p hp
      exact hnn p hp
  | cons h t ih =>
    intro m real hdisj hnd hnn
    rw [rewardLoop]
    by_cases hcrc : h ∈ a.crcProgramHashes
    · rw [if_pos hcrc]
      have hkeys' : ∀ k ∈ keysOf (alAdd m a.crcAddress ibcr),
          k ∈ keysOf m ∨ k = a.crcAddress := by
        intro k hk
        by_cases hc : a.crcAddress ∈ keysOf m
        · rw [alAdd, keysOf_alSet_mem _ _ _ hc] at hk
          exact Or.inl hk
        · rw [alAdd, keysOf_alSet_not_mem _ _ _ hc] at hk
          rcases List.mem_append.mp hk with hk | hk
          · exact Or.inl hk
          · simp at hk
            exact Or.inr hk
      have hdisj' : ∀ h' ∈ t, h' ∉ a.crcProgramHashes →
          h' ∉ keysOf (alAdd m a.crcAddress ibcr) ∧ h' ≠ a.crcAddress := by
        intro h' ht hnc
        have hd := hdisj h' (List.mem_cons.mpr (Or.inr ht)) hnc
        refine ⟨?_, hd.2⟩
        intro hk
        rcases hkeys' h' hk with hk | hk
        · exact hd.1 hk
        · exact hd.2 hk
      have hnd' : (t.filter (fun h => decide (h ∉ a.crcProgramHashes))).Nodup := by
        rw [List.filter_cons_of_neg (by simp [hcrc])] at hnd
        exact hnd
      have hnn' : ∀ p ∈ alAdd m a.crcAddress ibcr, 0 ≤ p.2 := by
        intro p hp
        rcases mem_alSet_cases _ _ _ _ hp with hp | hp
        · have hold : 0 ≤ (alGet m a.crcAddress).getD 0 := by
            cases hg : alGet m a.crcAddress with
            | none => simp
            | some v =>
              simp only [Option.getD_some]
              exact hnn _ (mem_of_alGet _ _ _ hg)
          rw [hp]
          simp only
          omega
        · exact hnn p hp
      obtain ⟨s1, s2, s3⟩ := ih (alAdd m a.crcAddress ibcr) (real + ibcr)
        hdisj' hnd' hnn'
      refine ⟨?_, ?_, s3⟩
      · have e := alSum_alAdd m a.crcAddress ibcr
        omega
      · intro k hk
        rcases s2 k hk with hk' | hk' | hk'
        · rcases hkeys' k hk' with h2 | h2
          · exact Or.inl h2
          · exact Or.inr (Or.inl h2)
        · exact Or.inr (Or.inl hk')
        · exact Or.inr (Or.inr ⟨List.mem_cons.mpr (Or.inr hk'.1), hk'.2⟩)
    · rw [if_neg hcrc]
      have hfresh := hdisj h (List.mem_cons.mpr (Or.inl rfl)) hcrc
      have hndc : h ∉ (t.filter (fun h => decide (h ∉ a.crcProgramHashes)))
          ∧ (t.filter (fun h => decide (h ∉ a.crcProgramHashes))).Nodup := by
        rw [List.filter_cons_of_pos (by simpa using hcrc)] at hnd
        exact List.nodup_cons.mp hnd
      have hkeys' : keysOf (alSet m h
          (ibcr + ratTrunc ((a.ownerVotesInRound h : ℚ) * rpv)))
          = keysOf m ++ [h] := keysOf_alSet_not_mem _ _ _ hfresh.1
      have hdisj' : ∀ h' ∈ t, h' ∉ a.crcProgramHashes →
          h' ∉ keysOf (alSet m h
            (ibcr + ratTrunc ((a.ownerVotesInRound h : ℚ) * rpv)))
          ∧ h' ≠ a.crcAddress := by
        intro h' ht hnc
        have hd := hdisj h' (List.mem_cons.mpr (Or.inr ht)) hnc
        refine ⟨?_, hd.2⟩
        rw [hkeys']
        intro hk
        rcases List.mem_append.mp hk with hk | hk
        · exact hd.1 hk
        · simp at hk
          subst hk
          exact hndc.1 (List.mem_filter.mpr ⟨ht, by simpa using hnc⟩)
      have hnn' : ∀ p ∈ alSet m h
          (ibcr + ratTrunc ((a.ownerVotesInRound h : ℚ) * rpv)), 0 ≤ p.2 := by
        intro p hp
        rcases mem_alSet_cases _ _ _ _ hp with hp | hp
        · rw [hp]
          simp only
          have := hipr h
          omega
        · exact hnn p hp
      obtain ⟨s1, s2, s3⟩ := ih _ _ hdisj' hndc.2 hnn'
      refine ⟨?_, ?_, s3⟩
      · have e := alSum_alSet_not_mem m h
          (ibcr + ratTrunc ((a.ownerVotesInRound h : ℚ) * rpv)) hfresh.1
        omega
      · intro k hk
        rcases s2 k hk with hk' | hk' | hk'
        · rw [hkeys'] at hk'
          rcases List.mem_append.mp hk' with hk' | hk'
          · exact Or.inl hk'
          · simp at hk'
            subst hk'
            exact Or.inr (Or.inr ⟨List.mem_cons.mpr (Or.inl rfl), hcrc⟩)
        · exact Or.inr (Or.inl hk')
        · exact Or.inr (Or.inr ⟨List.mem_cons.mpr (Or.inr hk'.1), hk'.2⟩)

/-- Loop invariant for the candidate distribution loop: with fresh,
pairwise-distinct candidate hashes the sum of the map values grows
exactly with `realDPOSReward` and stays entrywise non-negative. -/
theorem candLoop_spec (a : Arbitrators) (rpv : ℚ)
    (hipr : ∀ h : ℕ, 0 ≤ ratTrunc ((a.ownerVotesInRound h : ℚ) * rpv)) :
    ∀ (L : List ℕ) (m : List (ℕ × ℤ)) (real : ℤ),
    (∀ h ∈ L, h ∉ keysOf m) → L.Nodup → (∀ p ∈ m, 0 ≤ p.2) →
    alSum (candLoop a rpv L m real).1 - alSum m
        = (candLoop a rpv L m real).2 - real
    ∧ (∀ p ∈ (candLoop a rpv L m real).1, 0 ≤ p.2) := by
  intro L
  induction L with
  | nil =>
    intro m real hkeys hnd hnn
    exact ⟨by simp [candLoop], hnn⟩
  | cons h t ih =>
    intro m real hkeys hnd hnn
    rw [candLoop]
    have hfresh := hkeys h (List.mem_cons.mpr (Or.inl rfl))
    have hkeys2 : keysOf (alSet m h (ratTrunc ((a.ownerVotesInRound h : ℚ) * rpv)))
        = keysOf m ++ [h] := keysOf_alSet_not_mem _ _ _ hfresh
    rw [List.nodup_cons] at hnd
    have hkeys' : ∀ h' ∈ t, h' ∉ keysOf (alSet m h
        (ratTrunc ((a.ownerVotesInRound h : ℚ) * rpv))) := by
      intro h' ht
      rw [hkeys2]
      intro hk
      rcases List.mem_append.mp hk with hk | hk
      · exact hkeys h' (List.mem_cons.mpr (Or.inr ht)) hk
      · simp at hk
        subst hk
        exact hnd.1 ht
    have hnn' : ∀ p ∈ alSet m h (ratTrunc ((a.ownerVotesInRound h : ℚ) * rpv)),
        0 ≤ p.2 := by
      intro p hp
      rcases mem_alSet_cases _ _ _ _ hp with hp | hp
      · rw [hp]
        exact hipr h
      · exact hnn p hp
    obtain ⟨s1, s2⟩ := ih _ _ hkeys' hnd.2 hnn'
    refine ⟨?_, s2⟩
    have e := alSum_alSet_not_mem m h
      (ratTrunc ((a.ownerVotesInRound h : ℚ) * rpv)) hfresh
    omega
theorem distributeWith_eq (a : Arbitrators) (reward : ℤ)
    (hemp : ¬ a.currentOwnerProgramHashes.isEmpty = true)
    (htv : ¬ a.totalVotesInRound = 0) :
    distributeWithNormalArbitrators a reward =
      ({ a with arbitersRoundReward := some (candLoop a
          (rewardPerVote a reward) a.candidateOwnerProgramHashes
          (rewardLoop a (individualBlockConfirmReward a reward)
            (rewardPerVote a reward) a.currentOwnerProgramHashes
            (a.arbitersRoundReward.getD []) 0).1
          (rewardLoop a (individualBlockConfirmReward a reward)
            (rewardPerVote a reward) a.currentOwnerProgramHashes
            (a.arbitersRoundReward.getD []) 0).2).1 },
        Except.ok
          (candLoop a (rewardPerVote a reward) a.candidateOwnerProgramHashes
            (rewardLoop a (individualBlockConfirmReward a reward)
              (rewardPerVote a reward) a.currentOwnerProgramHashes
              (a.arbitersRoundReward.getD []) 0).1
            (rewardLoop a (individualBlockConfirmReward a reward)
              (rewardPerVote a reward) a.currentOwnerProgramHashes
              (a.arbitersRoundReward.getD []) 0).2).2) := by
  rw [distributeWithNormalArbitrators, if_neg hemp, if_neg htv]

/-- C1 (amended): at a settlement with a non-zero vote snapshot whose
non-CRC owner hashes and candidate hashes are pairwise distinct and
distinct from the CRC address, with non-negative votes and reward, a
successful `distributeDPOSReward` satisfies exact conservation:
`Σ arbitersRoundReward.values + finalRoundChange = reward`, with every
term non-negative.  (In the zero-vote branch the code instead credits the
whole reward to the CRC address *and* sets `finalRoundChange = reward`,
so the sum is `2·reward` there — see the counterexample.) -/
theorem reward_conservation (a : Arbitrators) (reward : ℤ) (a2 : Arbitrators)
    (hnd : ((a.currentOwnerProgramHashes.filter
        (fun h => decide (h ∉ a.crcProgramHashes)))
        ++ a.candidateOwnerProgramHashes).Nodup)
    (hca : a.crcAddress ∉
      ((a.currentOwnerProgramHashes.filter
        (fun h => decide (h ∉ a.crcProgramHashes)))
        ++ a.candidateOwnerProgramHashes))
    (hv : ∀ h : ℕ, 0 ≤ a.ownerVotesInRound h)
    (hr : 0 ≤ reward)
    (htv : 0 < a.totalVotesInRound)
    (hok : distributeDPOSReward a reward = Except.ok a2) :
    alSum ((GetArbitersRoundReward a2).getD []) + GetFinalRoundChange a2 = reward
    ∧ 0 ≤ GetFinalRoundChange a2
    ∧ ∀ p ∈ (GetArbitersRoundReward a2).getD [], 0 ≤ p.2 := by
  by_cases hemp : a.currentOwnerProgramHashes.isEmpty = true
  · exfalso
    rw [distributeDPOSReward] at hok
    rw [distributeWithNormalArbitrators] at hok
    simp only [freshRoundState, hemp, if_true] at hok
    simp at hok
  obtain ⟨hnd1, hnd2, hdisj12⟩ := List.nodup_append.mp hnd
  have hcaL : a.crcAddress ∉ a.currentOwnerProgramHashes.filter
      (fun h => decide (h ∉ a.crcProgramHashes)) :=
    fun hc => hca (List.mem_append.mpr (Or.inl hc))
  have hcaR : a.crcAddress ∉ a.candidateOwnerProgramHashes :=
    fun hc => hca (List.mem_append.mpr (Or.inr hc))
  have ha1emp : ¬ (freshRoundState a).currentOwnerProgramHashes.isEmpty = true :=
    hemp
  have ha1tv : ¬ (freshRoundState a).totalVotesInRound = 0 := by
    show ¬ a.totalVotesInRound = 0
    omega
  have heq := distributeWith_eq (freshRoundState a) reward ha1emp ha1tv
  rw [distributeDPOSReward] at hok
  rw [heq] at hok
  dsimp only at hok
  split at hok
  · exact absurd hok (by simp)
  rename_i hch
  injection hok with h1
  subst h1
  -- non-negativity of the two float-derived per-head amounts
  have hibcr : 0 ≤ individualBlockConfirmReward (freshRoundState a) reward := by
    rw [individualBlockConfirmReward]
    apply Int.floor_nonneg.mpr
    apply div_nonneg
    · apply mul_nonneg
      · exact_mod_cast hr
      · norm_num
    · positivity
  have hrpv : 0 ≤ rewardPerVote (freshRoundState a) reward := by
    rw [rewardPerVote]
    apply div_nonneg
    · have hq : ((reward : ℚ) - (reward : ℚ) * (25 / 100))
          = (reward : ℚ) * (75 / 100) := by ring
      rw [hq]
      apply mul_nonneg
      · exact_mod_cast hr
      · norm_num
    · show (0 : ℚ) ≤ (a.totalVotesInRound : ℚ)
      exact_mod_cast htv.le
  have hipr : ∀ h : ℕ, 0 ≤ ratTrunc
      (((freshRoundState a).ownerVotesInRound h : ℚ)
        * rewardPerVote (freshRoundState a) reward) := by
    intro h
    apply ratTrunc_nonneg
    apply mul_nonneg
    · show (0 : ℚ) ≤ (a.ownerVotesInRound h : ℚ)
      exact_mod_cast hv h
    · exact hrpv
  -- the per-arbitrator loop
  have hm0keys : keysOf ((freshRoundState a).arbitersRoundReward.getD [])
      = [a.crcAddress] := rfl
  have hdisjL : ∀ h ∈ (freshRoundState a).currentOwnerProgramHashes,
      h ∉ (freshRoundState a).crcProgramHashes →
      h ∉ keysOf ((freshRoundState a).arbitersRoundReward.getD [])
      ∧ h ≠ (freshRoundState a).crcAddress := by
    intro h hmem hncrc
    have hmemf : h ∈ a.currentOwnerProgramHashes.filter
        (fun x => decide (x ∉ a.crcProgramHashes)) :=
      List.mem_filter.mpr ⟨hmem, by simpa using hncrc⟩
    have hne : h ≠ a.crcAddress := by
      intro he
      exact hcaL (he ▸ hmemf)
    constructor
    · rw [hm0keys]
      simp [hne]
    · exact hne
  have hm0nn : ∀ p ∈ (freshRoundState a).arbitersRoundReward.getD [], 0 ≤ p.2 := by
    intro p hp
    have hp' : p ∈ [(a.crcAddress, (0 : ℤ))] := hp
    rw [List.mem_singleton] at hp'
    rw [hp']
  obtain ⟨s1, s2, s3⟩ := rewardLoop_spec (freshRoundState a)
    (individualBlockConfirmReward (freshRoundState a) reward)
    (rewardPerVote (freshRoundState a) reward) hibcr hipr
    (freshRoundState a).currentOwnerProgramHashes
    ((freshRoundState a).arbitersRoundReward.getD []) 0 hdisjL hnd1 hm0nn
  -- the candidate loop
  have hcandkeys : ∀ h ∈ (freshRoundState a).candidateOwnerProgramHashes,
      h ∉ keysOf (rewardLoop (freshRoundState a)
        (individualBlockConfirmReward (freshRoundState a) reward)
        (rewardPerVote (freshRoundState a) reward)
        (freshRoundState a).currentOwnerProgramHashes
        ((freshRoundState a).arbitersRoundReward.getD []) 0).1 := by
    intro h ht hk
    have hne : h ≠ a.crcAddress := by
      intro he
      exact hcaR (he ▸ ht)
    rcases s2 h hk with hk' | hk' | hk'
    · rw [hm0keys] at hk'
      simp at hk'
      exact hne hk'
    · exact hne hk'
    · exact hdisj12 (List.mem_filter.mpr ⟨hk'.1, by simpa using hk'.2⟩) ht
  obtain ⟨t1, t2⟩ := candLoop_spec (freshRoundState a)
    (rewardPerVote (freshRoundState a) reward) hipr
    (freshRoundState a).candidateOwnerProgramHashes
    (rewardLoop (freshRoundState a)
      (individualBlockConfirmReward (freshRoundState a) reward)
      (rewardPerVote (freshRoundState a) reward)
      (freshRoundState a).currentOwnerProgramHashes
      ((freshRoundState a).arbitersRoundReward.getD []) 0).1
    (rewardLoop (freshRoundState a)
      (individualBlockConfirmReward (freshRoundState a) reward)
      (rewardPerVote (freshRoundState a) reward)
      (freshRoundState a).currentOwnerProgramHashes
      ((freshRoundState a).arbitersRoundReward.getD []) 0).2
    hcandkeys hnd2 s3
  have hm0sum : alSum ((freshRoundState a).arbitersRoundReward.getD []) = 0 := by
    simp [freshRoundState, alSet]
  rw [GetArbitersRoundReward, GetFinalRoundChange]
  dsimp only
  simp only [Option.getD_some]
  refine ⟨by omega, by omega, t2⟩

/-- The state for the C1 counterexample: one non-CRC arbitrator owner
hash, an empty vote snapshot (`totalVotesInRound = 0`). -/
def zeroVotesSt : Arbitrators := { baseSt with currentOwnerProgramHashes := [1] }

/-- C1 counterexample: in the zero-votes branch the distribution both
credits the whole reward (100) to the CRC address in the replaced map
and sets `finalRoundChange` to the full reward, so
`Σ arbitersRoundReward.values + finalRoundChange = 200 ≠ 100` even
though the call succeeds — the claimed conservation fails exactly in the
branch the claim calls out. -/
theorem zeroVotes_breaks_conservation :
    (match distributeDPOSReward zeroVotesSt 100 with
      | Except.ok s => alSum ((GetArbitersRoundReward s).getD [])
          + GetFinalRoundChange s
      | Except.error _ => 0) = 200 ∧ (200 : ℤ) ≠ 100 := by
  constructor
  · rw [distributeDPOSReward]
    rw [distributeWithNormalArbitrators]
    norm_num [freshRoundState, zeroVotesSt, baseSt, alSet, alSum,
      GetArbitersRoundReward, GetFinalRoundChange]
  · decide
/-- A state with one non-CRC arbitrator owner hash 1 holding 10 votes. -/
def c1WitSt : Arbitrators :=
  { baseSt with
    currentOwnerProgramHashes := [1],
    ownerVotesInRound := fun _ => 10,
    totalVotesInRound := 10 }

/-- The state after `distributeDPOSReward c1WitSt 100`: owner 1 receives
`floor(25/1) + trunc(10 · 7.5) = 100`, the CRC entry stays 0 and the
change is 0. -/
def c1WitRes : Arbitrators :=
  { baseSt with
    currentOwnerProgramHashes := [1],
    ownerVotesInRound := fun _ => 10,
    totalVotesInRound := 10,
    arbitersRoundReward := some [(0, 0), (1, 100)],
    finalRoundChange := 0 }

theorem c1Wit_eval : distributeDPOSReward c1WitSt 100 = Except.ok c1WitRes := by
  rw [distributeDPOSReward, distributeWithNormalArbitrators]
  norm_num [freshRoundState, c1WitSt, c1WitRes, baseSt, alSet, alGet,
    rewardLoop, candLoop, individualBlockConfirmReward, rewardPerVote,
    ratTrunc, alSum]

/-- C1 witness: the conservation conclusion at the concrete state
`c1WitSt` with reward 100 — the payout map sums to 100, the change is 0,
and all entries are non-negative. -/
theorem reward_conservation_witness :
    alSum ((GetArbitersRoundReward c1WitRes).getD [])
        + GetFinalRoundChange c1WitRes = 100
    ∧ 0 ≤ GetFinalRoundChange c1WitRes
    ∧ ∀ p ∈ (GetArbitersRoundReward c1WitRes).getD [], 0 ≤ p.2 :=
  reward_conservation c1WitSt 100 c1WitRes (by decide) (by decide)
    (by intro h; show (0 : ℤ) ≤ 10; decide) (by decide) (by decide) c1Wit_eval

end ElastosDPOS
